import Mathlib

/-!
Verification of the Figgie simultaneous-tick game engine (engine.py).

The Python engine is shallowly embedded: dictionaries keyed by player id
become total functions from `Nat` (players) or from `Suit`, Python `int`
becomes `Int`, and the fallible policy call becomes `Except Unit RawAction`.
Player-submitted actions are modelled at the raw "dictionary" level
(`RawAction`) so that malformed actions (non-dict values, missing fields,
wrong field types) are representable, exactly as `validate_action` sees them.
-/

namespace Figgie

/-- The four card suits (engine.py `SUITS`). -/
inductive Suit where
  | spades
  | clubs
  | hearts
  | diamonds
deriving DecidableEq, Repr

instance : Fintype Suit :=
  ⟨⟨[Suit.spades, Suit.clubs, Suit.hearts, Suit.diamonds], by decide⟩,
   by intro x; cases x <;> decide⟩

/-- engine.py `STARTING_MONEY = 350`. -/
def STARTING_MONEY : Int := 350

/-- engine.py `POT = 200`. -/
def POT : Int := 200

/-- engine.py `CARD_BONUS = 10`. -/
def CARD_BONUS : Int := 10

/-- engine.py `MAX_TICKS = 200`. -/
def MAX_TICKS : Nat := 200

/-- engine.py `CONSECUTIVE_PASS_LIMIT = 3`. -/
def CONSECUTIVE_PASS_LIMIT : Nat := 3

/-- engine.py `get_ante`: 50 for 4 players, 40 for 5 players.  Other player
counts raise in Python and are never reached here (the scheduler rejects
them up front); the final branch is dead code. -/
def get_ante (num_players : Nat) : Int :=
  if num_players = 4 then 50 else if num_players = 5 then 40 else 0

/-- engine.py `Quote`: a bid or ask in the order book.  The Python default
(`price=0, player_id=-1`) is the invalid quote. -/
structure Quote where
  price : Int
  player_id : Int
deriving DecidableEq, Repr

/-- The invalid/reset quote (Python `Quote()` default / `Quote.reset`). -/
def Quote.empty : Quote := ⟨0, -1⟩

/-- `Quote.is_valid`: `price > 0 and player_id >= 0`. -/
def Quote.is_valid (q : Quote) : Bool :=
  decide (0 < q.price) && decide (0 ≤ q.player_id)

/-- engine.py `OrderBook` for a single suit. -/
structure OrderBook where
  suit : Suit
  bid : Quote
  ask : Quote
  last_trade_price : Option Int
deriving DecidableEq, Repr

/-- engine.py `Trade`: a completed trade record. -/
structure Trade where
  suit : Suit
  price : Int
  buyer_id : Nat
  seller_id : Nat
  tick : Nat
deriving DecidableEq, Repr

/-- engine.py `FiggieGame`: the full game state.  `hands` and `money` are
total functions standing for the Python dicts keyed by `0 .. num_players-1`. -/
structure FiggieGame where
  num_players : Nat
  hands : Nat → Suit → Int
  money : Nat → Int
  goal_suit : Suit
  suit_counts : Suit → Nat
  books : Suit → OrderBook
  trades : List Trade
  current_tick : Nat
  game_over : Bool
  final_scores : List Int

/-! ### Raw (dictionary-level) actions, as `validate_action` receives them -/

/-- A Python value in the `price` field: either an `int` or anything else
(`isinstance(price, int)` fails on the latter). -/
inductive PyVal where
  | pint (n : Int)
  | other
deriving DecidableEq, Repr

/-- The fields `validate_action` reads from an action dictionary via `.get`:
a missing key is `none`. -/
structure ActionDict where
  atype : Option String
  suit : Option String
  price : Option PyVal
deriving DecidableEq, Repr

/-- A raw value returned by a policy: either not a dictionary at all, or a
dictionary with optional `type` / `suit` / `price` fields. -/
inductive RawAction where
  | notDict
  | dict (d : ActionDict)
deriving DecidableEq, Repr

/-- The literal `{"type": "pass"}` substituted by the scheduler. -/
def passRaw : RawAction := .dict ⟨some "pass", none, none⟩

/-- Raw action for `{"type": "bid", "suit": s, "price": p}`. -/
def bidRaw (s : String) (p : Int) : RawAction := .dict ⟨some "bid", some s, some (.pint p)⟩

/-- Raw action for `{"type": "ask", "suit": s, "price": p}`. -/
def askRaw (s : String) (p : Int) : RawAction := .dict ⟨some "ask", some s, some (.pint p)⟩

/-- Raw action for `{"type": "buy", "suit": s}`. -/
def buyRaw (s : String) : RawAction := .dict ⟨some "buy", some s, none⟩

/-- Raw action for `{"type": "sell", "suit": s}`. -/
def sellRaw (s : String) : RawAction := .dict ⟨some "sell", some s, none⟩

/-- The suit-name strings accepted by the engine (`suit in SUITS`). -/
def suitOfString (s : String) : Option Suit :=
  if s = "spades" then some .spades
  else if s = "clubs" then some .clubs
  else if s = "hearts" then some .hearts
  else if s = "diamonds" then some .diamonds
  else none

/-- A structurally well-formed action, after the shape checks of
`validate_action` (dict, known `type`, known `suit`, integer `price` where
one is required) have passed. -/
inductive PAction where
  | pass
  | bid (s : Suit) (price : Int)
  | ask (s : Suit) (price : Int)
  | buy (s : Suit)
  | sell (s : Suit)
deriving DecidableEq, Repr

/-- The shape checks of `validate_action`: action must be a dict, `type`
must be one of the five kinds, `suit` must name a suit (for non-pass), and
`price` must be a Python `int` (for bid/ask).  Returns `none` exactly when
Python returns one of the malformed-shape errors. -/
def parseAction : RawAction → Option PAction
  | .notDict => none
  | .dict d =>
    match d.atype with
    | some "pass" => some .pass
    | some "bid" =>
      match d.suit.bind suitOfString, d.price with
      | some s, some (.pint p) => some (.bid s p)
      | _, _ => none
    | some "ask" =>
      match d.suit.bind suitOfString, d.price with
      | some s, some (.pint p) => some (.ask s p)
      | _, _ => none
    | some "buy" =>
      match d.suit.bind suitOfString with
      | some s => some (.buy s)
      | none => none
    | some "sell" =>
      match d.suit.bind suitOfString with
      | some s => some (.sell s)
      | none => none
    | _ => none

/-- The state-dependent checks of engine.py `validate_action`, one branch per
action kind, in the source's order.  Returns the boolean validity flag (the
diagnostic reason string carries no game logic and is omitted). -/
def validateP (game : FiggieGame) (player_id : Nat) : PAction → Bool
  | .pass => true
  | .bid s price =>
    let book := game.books s
    decide (0 < price) &&
    decide (price ≤ game.money player_id) &&
    (!book.bid.is_valid || decide (book.bid.price < price)) &&
    (!book.ask.is_valid || decide (price < book.ask.price))
  | .ask s price =>
    let book := game.books s
    decide (0 < price) &&
    decide (0 < game.hands player_id s) &&
    (!book.ask.is_valid || decide (price < book.ask.price)) &&
    (!book.bid.is_valid || decide (book.bid.price < price))
  | .buy s =>
    let book := game.books s
    book.ask.is_valid &&
    decide (book.ask.player_id ≠ (player_id : Int)) &&
    decide (book.ask.price ≤ game.money player_id)
  | .sell s =>
    let book := game.books s
    book.bid.is_valid &&
    decide (book.bid.player_id ≠ (player_id : Int)) &&
    decide (0 < game.hands player_id s)

/-- engine.py `validate_action` (boolean component): shape checks then
state-dependent checks. -/
def validate_action (game : FiggieGame) (player_id : Nat) (action : RawAction) : Bool :=
  match parseAction action with
  | none => false
  | some a => validateP game player_id a

/-- Clear every suit's quotes, setting the traded suit's last trade price
first (engine.py: `book.last_trade_price = price` then
`for s in SUITS: game.books[s].reset_quotes()`). -/
def clearBooksAfterTrade (books : Suit → OrderBook) (traded : Suit) (price : Int) :
    Suit → OrderBook :=
  fun s =>
    { suit := (books s).suit
      bid := Quote.empty
      ask := Quote.empty
      last_trade_price := if s = traded then some price else (books s).last_trade_price }

/-- engine.py `execute_action` on a parsed action.  Money and hands updates
mirror the source's sequential dict mutations. -/
def executeP (game : FiggieGame) (player_id : Nat) : PAction → FiggieGame × Option Trade
  | .pass => (game, none)
  | .bid s price =>
    ({ game with
        books := Function.update game.books s
          { game.books s with bid := ⟨price, (player_id : Int)⟩ } }, none)
  | .ask s price =>
    ({ game with
        books := Function.update game.books s
          { game.books s with ask := ⟨price, (player_id : Int)⟩ } }, none)
  | .buy s =>
    let book := game.books s
    let buyer_id := player_id
    let seller_id := book.ask.player_id.toNat
    let price := book.ask.price
    let money1 := Function.update game.money buyer_id (game.money buyer_id - price)
    let money2 := Function.update money1 seller_id (money1 seller_id + price)
    let hands1 := Function.update game.hands buyer_id
      (Function.update (game.hands buyer_id) s (game.hands buyer_id s + 1))
    let hands2 := Function.update hands1 seller_id
      (Function.update (hands1 seller_id) s (hands1 seller_id s - 1))
    let trade : Trade := ⟨s, price, buyer_id, seller_id, game.current_tick⟩
    ({ game with
        money := money2
        hands := hands2
        trades := game.trades ++ [trade]
        books := clearBooksAfterTrade game.books s price }, some trade)
  | .sell s =>
    let book := game.books s
    let buyer_id := book.bid.player_id.toNat
    let seller_id := player_id
    let price := book.bid.price
    let money1 := Function.update game.money buyer_id (game.money buyer_id - price)
    let money2 := Function.update money1 seller_id (money1 seller_id + price)
    let hands1 := Function.update game.hands buyer_id
      (Function.update (game.hands buyer_id) s (game.hands buyer_id s + 1))
    let hands2 := Function.update hands1 seller_id
      (Function.update (hands1 seller_id) s (hands1 seller_id s - 1))
    let trade : Trade := ⟨s, price, buyer_id, seller_id, game.current_tick⟩
    ({ game with
        money := money2
        hands := hands2
        trades := game.trades ++ [trade]
        books := clearBooksAfterTrade game.books s price }, some trade)

/-- engine.py `execute_action`, taking the raw action (only ever called on
validated actions, for which `parseAction` succeeds; the fall-through branch
returns the state unchanged, matching the source's final `return None`). -/
def execute_action (game : FiggieGame) (player_id : Nat) (action : RawAction) :
    FiggieGame × Option Trade :=
  match parseAction action with
  | some a => executeP game player_id a
  | none => (game, none)

/-! ### Dealing and initial state -/

/-- Nested update of a hands table at one player and one suit
(Python `hands[p][suit] = v`). -/
def updHand (h : Nat → Suit → Int) (p : Nat) (s : Suit) (v : Int) : Nat → Suit → Int :=
  Function.update h p (Function.update (h p) s v)

/-- The round-robin dealing loop of engine.py `deal_cards`
(`for i, card in enumerate(...): hands[i % num_players][card] += 1`),
recursing over the remaining deck with the running card index `i`. -/
def dealGo (num_players : Nat) : List Suit → Nat → (Nat → Suit → Int) → Nat → Suit → Int
  | [], _, h => h
  | c :: rest, i, h =>
    dealGo num_players rest (i + 1)
      (updHand h (i % num_players) c (h (i % num_players) c + 1))

/-- engine.py `deal_cards`: deal `deck[: cards_per_player * num_players]`
round-robin starting from all-zero hands, where
`cards_per_player = len(deck) // num_players`. -/
def deal_cards (deck : List Suit) (num_players : Nat) : Nat → Suit → Int :=
  dealGo num_players (deck.take (deck.length / num_players * num_players)) 0
    (fun _ _ => 0)

/-- An all-empty order book for a suit (engine.py `FiggieGame.__post_init__`). -/
def OrderBook.empty (s : Suit) : OrderBook := ⟨s, Quote.empty, Quote.empty, none⟩

/-- The game state built by engine.py `run_game` before the tick loop: hands
dealt from the shuffled `deck`, every player charged the ante, all books
empty.  `deck` stands for the already-shuffled deck and `d` for the deck
distribution `suit_counts` it was built from. -/
def init_game (num_players : Nat) (deck : List Suit) (d : Suit → Nat) (goal : Suit) :
    FiggieGame :=
  { num_players := num_players
    hands := deal_cards deck num_players
    money := fun p => if p < num_players then STARTING_MONEY - get_ante num_players else 0
    goal_suit := goal
    suit_counts := d
    books := OrderBook.empty
    trades := []
    current_tick := 0
    game_over := false
    final_scores := [] }

/-! ### Scoring -/

/-- `card_payouts[pid] = goal_cards[pid] * CARD_BONUS`. -/
def card_payout (game : FiggieGame) (pid : Nat) : Int :=
  game.hands pid game.goal_suit * CARD_BONUS

/-- `max(goal_cards.values())` over players `0 .. num_players-1` (defaulting
to 0 on an empty player range, which Python never reaches). -/
def max_goal_cards (game : FiggieGame) : Int :=
  (((List.range game.num_players).map (fun p => game.hands p game.goal_suit)).max?).getD 0

/-- `winners = [pid for pid, count in goal_cards.items() if count == max_cards]`,
in ascending player id order. -/
def winnersList (game : FiggieGame) : List Nat :=
  (List.range game.num_players).filter
    (fun p => game.hands p game.goal_suit = max_goal_cards game)

/-- `remainder = POT - total_card_payout`. -/
def pot_remainder (game : FiggieGame) : Int :=
  POT - ((List.range game.num_players).map (card_payout game)).sum

/-- The final `for pid in range(...)` loop of `calculate_scores`, threading
the mutable `leftover` counter; produces the scores in ascending pid order.
Division is by `winners.length`, which is positive whenever the loop can
take the winner branch, so Python floor division coincides with `Int.ediv`
(the `/` used here). -/
def scoresGo (game : FiggieGame) (winners : List Nat) (remainder_per_winner : Int) :
    List Nat → Int → List Int
  | [], _ => []
  | pid :: rest, leftover =>
    let base := game.money pid - STARTING_MONEY + card_payout game pid
    if pid ∈ winners then
      if 0 < leftover then
        (base + remainder_per_winner + 1) :: scoresGo game winners remainder_per_winner rest (leftover - 1)
      else
        (base + remainder_per_winner) :: scoresGo game winners remainder_per_winner rest leftover
    else
      base :: scoresGo game winners remainder_per_winner rest leftover

/-- `remainder_per_winner = remainder // len(winners) if winners else 0`. -/
def remainderPerWinner (game : FiggieGame) : Int :=
  if winnersList game = [] then 0
  else pot_remainder game / ((winnersList game).length : Int)

/-- `leftover = remainder % len(winners) if winners else 0`. -/
def leftover0 (game : FiggieGame) : Int :=
  if winnersList game = [] then 0
  else pot_remainder game % ((winnersList game).length : Int)

/-- engine.py `calculate_scores`, as the list of scores for players
`0 .. num_players-1` in ascending order (the Python dict keyed by pid). -/
def calculate_scores (game : FiggieGame) : List Int :=
  scoresGo game (winnersList game) (remainderPerWinner game)
    (List.range game.num_players) (leftover0 game)

/-! ### Per-player views and policies (scheduler collection phase) -/

/-- `OrderBook.to_dict`: quote rendered as `{"price": .., "player": ..}` or
`None` when invalid. -/
structure BookView where
  bid : Option (Int × Int)
  ask : Option (Int × Int)
  last_trade : Option Int
deriving DecidableEq, Repr

/-- `OrderBook.to_dict`. -/
def OrderBook.to_dict (b : OrderBook) : BookView :=
  { bid := if b.bid.is_valid then some (b.bid.price, b.bid.player_id) else none
    ask := if b.ask.is_valid then some (b.ask.price, b.ask.player_id) else none
    last_trade := b.last_trade_price }

/-- The per-player state dictionary built by engine.py `get_game_state`. -/
structure GameView where
  position : Nat
  hand : Suit → Int
  money : Int
  books : Suit → BookView
  trades : List Trade
  num_players : Nat
  tick : Nat

/-- engine.py `get_game_state`. -/
def get_game_state (game : FiggieGame) (player_id : Nat) : GameView :=
  { position := player_id
    hand := game.hands player_id
    money := game.money player_id
    books := fun s => (game.books s).to_dict
    trades := game.trades
    num_players := game.num_players
    tick := game.current_tick }

/-- A player policy: `get_action(state)`, which may raise (modelled as
`Except.error`) or return any Python value (modelled as `RawAction`,
including non-dictionaries). -/
def Policy := GameView → Except Unit RawAction

/-- The scheduler's guarded policy call: a raised exception is replaced by
`{"type": "pass"}` (engine.py `run_game`, Phase 1 `try/except`). -/
def collect_one (pol : Policy) (v : GameView) : RawAction :=
  match pol v with
  | .ok a => a
  | .error _ => passRaw

/-- Phase 1 of a tick: poll every player against the same current state. -/
def collect_actions (policies : List Policy) (game : FiggieGame) : List (Nat × RawAction) :=
  policies.enum.map (fun pa => (pa.1, collect_one pa.2 (get_game_state game pa.1)))

/-- `action.get("type") != "pass"` (negated): whether a raw action is the
pass action for the purposes of the all-passed check. -/
def rawIsPass : RawAction → Bool
  | .notDict => false
  | .dict d => d.atype = some "pass"

/-- One step of Phase 3: re-validate against the current state; an invalid
action is downgraded to `pass` and not executed.  Returns the new state,
the final (post-downgrade) action, and the validity flag. -/
def resolve_step (game : FiggieGame) (player_id : Nat) (action : RawAction) :
    FiggieGame × RawAction × Bool :=
  if validate_action game player_id action then
    ((execute_action game player_id action).1, action, true)
  else
    (game, passRaw, false)

/-- Phase 3 of a tick: resolve the shuffled action list sequentially,
accumulating the `all_passed` flag (initially `true`). -/
def resolve_actions (game : FiggieGame) :
    List (Nat × RawAction) → Bool → FiggieGame × Bool
  | [], all_passed => (game, all_passed)
  | (pid, a) :: rest, all_passed =>
    let r := resolve_step game pid a
    resolve_actions r.1 rest (all_passed && rawIsPass r.2.1)

/-- The tick resolution order: engine.py shuffles the collected pairs with
ambient randomness; it is modelled as an arbitrary per-tick reordering
function, so every theorem below holds for every possible shuffle outcome. -/
def Shuffler := Nat → List (Nat × RawAction) → List (Nat × RawAction)

/-- One full tick of engine.py `run_game`: set `current_tick`, collect,
shuffle, resolve.  Returns the new state and the `all_passed` flag. -/
def run_tick (policies : List Policy) (shuffle : Shuffler) (game : FiggieGame)
    (tick : Nat) : FiggieGame × Bool :=
  let g := { game with current_tick := tick }
  resolve_actions g (shuffle tick (collect_actions policies g)) true

/-- The `for tick in range(MAX_TICKS)` loop with the consecutive-all-pass
break, structurally recursing on the remaining fuel.  Returns the final
state and the number of ticks actually executed. -/
def run_loop (policies : List Policy) (shuffle : Shuffler) :
    Nat → Nat → Nat → FiggieGame → FiggieGame × Nat
  | 0, _, _, game => (game, 0)
  | fuel + 1, tick, consecutive_all_pass, game =>
    let r := run_tick policies shuffle game tick
    if r.2 then
      if CONSECUTIVE_PASS_LIMIT ≤ consecutive_all_pass + 1 then (r.1, 1)
      else
        let rec' := run_loop policies shuffle fuel (tick + 1) (consecutive_all_pass + 1) r.1
        (rec'.1, rec'.2 + 1)
    else
      let rec' := run_loop policies shuffle fuel (tick + 1) 0 r.1
      (rec'.1, rec'.2 + 1)

/-- The tick-loop portion of engine.py `run_game`, from the post-setup state. -/
def run_game_loop (policies : List Policy) (shuffle : Shuffler) (game : FiggieGame) :
    FiggieGame × Nat :=
  run_loop policies shuffle MAX_TICKS 0 0 game

/-! ### Sums over the player range, and reachability -/

/-- Total money held by players `0 .. num_players-1`. -/
def moneySum (game : FiggieGame) : Int :=
  ∑ p ∈ Finset.range game.num_players, game.money p

/-- Total count of suit `s` over all players' hands. -/
def playersCardSum (game : FiggieGame) (s : Suit) : Int :=
  ∑ p ∈ Finset.range game.num_players, game.hands p s

/-- Zero or more scheduler steps: each step executes one validator-approved
action of one of the players, exactly as the resolution phase does. -/
inductive ExecSteps : FiggieGame → FiggieGame → Prop where
  | refl (g : FiggieGame) : ExecSteps g g
  | step {g g1 : FiggieGame} (pid : Nat) (a : RawAction) :
      ExecSteps g g1 → pid < g1.num_players → validate_action g1 pid a = true →
      ExecSteps g (execute_action g1 pid a).1

/-! ### Basic lemmas about quotes, validation and execution -/

theorem Quote.is_valid_iff {q : Quote} :
    q.is_valid = true ↔ 0 < q.price ∧ 0 ≤ q.player_id := by
  simp [Quote.is_valid]

theorem Quote.empty_not_valid : Quote.empty.is_valid = false := by
  decide

theorem validate_action_iff {g : FiggieGame} {pid : Nat} {ra : RawAction} :
    validate_action g pid ra = true ↔
      ∃ pa, parseAction ra = some pa ∧ validateP g pid pa = true := by
  unfold validate_action
  cases hp : parseAction ra <;> simp

theorem execute_action_parsed {g : FiggieGame} {pid : Nat} {ra : RawAction} {pa : PAction}
    (hp : parseAction ra = some pa) :
    execute_action g pid ra = executeP g pid pa := by
  unfold execute_action
  rw [hp]

theorem validateP_bid_iff {g : FiggieGame} {pid : Nat} {s : Suit} {p : Int} :
    validateP g pid (.bid s p) = true ↔
      0 < p ∧ p ≤ g.money pid ∧
      ((g.books s).bid.is_valid = true → (g.books s).bid.price < p) ∧
      ((g.books s).ask.is_valid = true → p < (g.books s).ask.price) := by
  simp only [validateP, Bool.and_eq_true, Bool.or_eq_true, Bool.not_eq_true',
    decide_eq_true_eq]
  constructor
  · rintro ⟨⟨⟨h1, h2⟩, h3⟩, h4⟩
    refine ⟨h1, h2, ?_, ?_⟩
    · intro hb; rcases h3 with h | h
      · rw [hb] at h; exact absurd h (by simp)
      · exact h
    · intro hb; rcases h4 with h | h
      · rw [hb] at h; exact absurd h (by simp)
      · exact h
  · rintro ⟨h1, h2, h3, h4⟩
    refine ⟨⟨⟨h1, h2⟩, ?_⟩, ?_⟩
    · cases hb : (g.books s).bid.is_valid
      · exact Or.inl rfl
      · exact Or.inr (h3 hb)
    · cases hb : (g.books s).ask.is_valid
      · exact Or.inl rfl
      · exact Or.inr (h4 hb)

theorem validateP_ask_iff {g : FiggieGame} {pid : Nat} {s : Suit} {p : Int} :
    validateP g pid (.ask s p) = true ↔
      0 < p ∧ 0 < g.hands pid s ∧
      ((g.books s).ask.is_valid = true → p < (g.books s).ask.price) ∧
      ((g.books s).bid.is_valid = true → (g.books s).bid.price < p) := by
  simp only [validateP, Bool.and_eq_true, Bool.or_eq_true, Bool.not_eq_true',
    decide_eq_true_eq]
  constructor
  · rintro ⟨⟨⟨h1, h2⟩, h3⟩, h4⟩
    refine ⟨h1, h2, ?_, ?_⟩
    · intro hb; rcases h3 with h | h
      · rw [hb] at h; exact absurd h (by simp)
      · exact h
    · intro hb; rcases h4 with h | h
      · rw [hb] at h; exact absurd h (by simp)
      · exact h
  · rintro ⟨h1, h2, h3, h4⟩
    refine ⟨⟨⟨h1, h2⟩, ?_⟩, ?_⟩
    · cases hb : (g.books s).ask.is_valid
      · exact Or.inl rfl
      · exact Or.inr (h3 hb)
    · cases hb : (g.books s).bid.is_valid
      · exact Or.inl rfl
      · exact Or.inr (h4 hb)

theorem validateP_buy_iff {g : FiggieGame} {pid : Nat} {s : Suit} :
    validateP g pid (.buy s) = true ↔
      (g.books s).ask.is_valid = true ∧
      (g.books s).ask.player_id ≠ (pid : Int) ∧
      (g.books s).ask.price ≤ g.money pid := by
  simp [validateP, Bool.and_eq_true, decide_eq_true_eq, and_assoc]

theorem validateP_sell_iff {g : FiggieGame} {pid : Nat} {s : Suit} :
    validateP g pid (.sell s) = true ↔
      (g.books s).bid.is_valid = true ∧
      (g.books s).bid.player_id ≠ (pid : Int) ∧
      0 < g.hands pid s := by
  simp [validateP, Bool.and_eq_true, decide_eq_true_eq, and_assoc]

theorem executeP_num_players (g : FiggieGame) (pid : Nat) (pa : PAction) :
    ((executeP g pid pa).1).num_players = g.num_players := by
  cases pa <;> rfl

theorem executeP_suit_counts (g : FiggieGame) (pid : Nat) (pa : PAction) :
    ((executeP g pid pa).1).suit_counts = g.suit_counts := by
  cases pa <;> rfl

theorem execute_action_num_players (g : FiggieGame) (pid : Nat) (ra : RawAction) :
    ((execute_action g pid ra).1).num_players = g.num_players := by
  unfold execute_action
  cases hp : parseAction ra
  · rfl
  · exact executeP_num_players g pid _

theorem execute_action_suit_counts (g : FiggieGame) (pid : Nat) (ra : RawAction) :
    ((execute_action g pid ra).1).suit_counts = g.suit_counts := by
  unfold execute_action
  cases hp : parseAction ra
  · rfl
  · exact executeP_suit_counts g pid _

theorem clearBooksAfterTrade_bid (books : Suit → OrderBook) (traded : Suit)
    (price : Int) (s : Suit) :
    (clearBooksAfterTrade books traded price s).bid = Quote.empty := rfl

theorem clearBooksAfterTrade_ask (books : Suit → OrderBook) (traded : Suit)
    (price : Int) (s : Suit) :
    (clearBooksAfterTrade books traded price s).ask = Quote.empty := rfl

/-! ### Sums of updated functions over the player range -/

theorem sum_update_range (f : Nat → Int) {i n : Nat} (h : i < n) (v : Int) :
    ∑ p ∈ Finset.range n, Function.update f i v p =
      (∑ p ∈ Finset.range n, f p) - f i + v := by
  have hi : i ∈ Finset.range n := Finset.mem_range.mpr h
  rw [Finset.sum_update_of_mem hi, ← Finset.add_sum_erase _ f hi, Finset.erase_eq]
  ring

theorem update_apply_suit (H : Nat → Suit → Int) (q : Nat) (X : Suit → Int)
    (p : Nat) (s : Suit) :
    Function.update H q X p s = Function.update (fun r => H r s) q (X s) p := by
  by_cases hpq : p = q
  · subst hpq; simp
  · simp [Function.update_apply, hpq]

theorem sum_apply_update (H : Nat → Suit → Int) {q n : Nat} (hq : q < n)
    (X : Suit → Int) (s : Suit) :
    ∑ p ∈ Finset.range n, Function.update H q X p s =
      (∑ p ∈ Finset.range n, H p s) - H q s + X s := by
  calc ∑ p ∈ Finset.range n, Function.update H q X p s
      = ∑ p ∈ Finset.range n, Function.update (fun r => H r s) q (X s) p :=
        Finset.sum_congr rfl (fun p _ => update_apply_suit H q X p s)
    _ = (∑ p ∈ Finset.range n, H p s) - H q s + X s :=
        sum_update_range (fun r => H r s) hq (X s)

/-! ### Invariants preserved by validated execution -/

/-- Every live quote is owned by an actual player. -/
def OwnersInRange (g : FiggieGame) : Prop :=
  ∀ s : Suit,
    ((g.books s).bid.is_valid = true → (g.books s).bid.player_id.toNat < g.num_players) ∧
    ((g.books s).ask.is_valid = true → (g.books s).ask.player_id.toNat < g.num_players)

/-- No crossed book: whenever both quotes are live, bid < ask. -/
def Uncrossed (g : FiggieGame) : Prop :=
  ∀ s : Suit, (g.books s).bid.is_valid = true → (g.books s).ask.is_valid = true →
    (g.books s).bid.price < (g.books s).ask.price

/-- Per-suit card conservation against the deck distribution. -/
def CardsConserved (g : FiggieGame) : Prop :=
  ∀ s : Suit, playersCardSum g s = (g.suit_counts s : Int)

/-- Every player's balance is non-negative. -/
def MoneyNonneg (g : FiggieGame) : Prop :=
  ∀ p : Nat, p < g.num_players → 0 ≤ g.money p

/-- Every live bid's owner can afford the bid price. -/
def BidsAffordable (g : FiggieGame) : Prop :=
  ∀ s : Suit, (g.books s).bid.is_valid = true →
    (g.books s).bid.price ≤ g.money ((g.books s).bid.player_id.toNat)

instance (g : FiggieGame) : Decidable (OwnersInRange g) := by
  unfold OwnersInRange; infer_instance

instance (g : FiggieGame) : Decidable (Uncrossed g) := by
  unfold Uncrossed; infer_instance

theorem preserve_uncrossed_P {g : FiggieGame} {pid : Nat} {pa : PAction}
    (hv : validateP g pid pa = true) (hg : Uncrossed g) :
    Uncrossed (executeP g pid pa).1 := by
  cases pa with
  | pass => exact hg
  | bid s p =>
    obtain ⟨h1, h2, h3, h4⟩ := validateP_bid_iff.mp hv
    intro t
    simp only [executeP]
    by_cases ht : t = s
    · subst ht
      simp only [Function.update_same]
      intro _ hask
      exact h4 hask
    · simp only [Function.update_noteq ht]
      exact hg t
  | ask s p =>
    obtain ⟨h1, h2, h3, h4⟩ := validateP_ask_iff.mp hv
    intro t
    simp only [executeP]
    by_cases ht : t = s
    · subst ht
      simp only [Function.update_same]
      intro hbid _
      exact h4 hbid
    · simp only [Function.update_noteq ht]
      exact hg t
  | buy s =>
    intro t
    simp only [executeP, clearBooksAfterTrade_bid]
    rw [Quote.empty_not_valid]
    intro h
    exact absurd h (by simp)
  | sell s =>
    intro t
    simp only [executeP, clearBooksAfterTrade_bid]
    rw [Quote.empty_not_valid]
    intro h
    exact absurd h (by simp)

theorem preserve_owners_P {g : FiggieGame} {pid : Nat} {pa : PAction}
    (hpid : pid < g.num_players) (hv : validateP g pid pa = true)
    (hg : OwnersInRange g) :
    OwnersInRange (executeP g pid pa).1 := by
  cases pa with
  | pass => exact hg
  | bid s p =>
    intro t
    simp only [executeP]
    by_cases ht : t = s
    · subst ht
      simp only [Function.update_same]
      refine ⟨fun _ => ?_, (hg t).2⟩
      simpa using hpid
    · simp only [Function.update_noteq ht]
      exact hg t
  | ask s p =>
    intro t
    simp only [executeP]
    by_cases ht : t = s
    · subst ht
      simp only [Function.update_same]
      refine ⟨(hg t).1, fun _ => ?_⟩
      simpa using hpid
    · simp only [Function.update_noteq ht]
      exact hg t
  | buy s =>
    intro t
    simp only [executeP, clearBooksAfterTrade_bid, clearBooksAfterTrade_ask]
    rw [Quote.empty_not_valid]
    constructor <;> (intro h; exact absurd h (by simp))
  | sell s =>
    intro t
    simp only [executeP, clearBooksAfterTrade_bid, clearBooksAfterTrade_ask]
    rw [Quote.empty_not_valid]
    constructor <;> (intro h; exact absurd h (by simp))

theorem toNat_ne_of_ne {a : Int} {pid : Nat} (h0 : 0 ≤ a) (hne : a ≠ (pid : Int)) :
    a.toNat ≠ pid :=
  fun h => hne (by rw [← h, Int.toNat_of_nonneg h0])

theorem preserve_cards_P {g : FiggieGame} {pid : Nat} {pa : PAction}
    (hpid : pid < g.num_players) (hv : validateP g pid pa = true)
    (hg : OwnersInRange g) (hc : CardsConserved g) :
    CardsConserved (executeP g pid pa).1 := by
  cases pa with
  | pass => exact hc
  | bid s p => exact hc
  | ask s p => exact hc
  | buy s =>
    obtain ⟨hask, hne, hafford⟩ := validateP_buy_iff.mp hv
    have hqn : (g.books s).ask.player_id.toNat < g.num_players := (hg s).2 hask
    intro t
    have hnum : ((executeP g pid (.buy s)).1).num_players = g.num_players := rfl
    have hsc : ((executeP g pid (.buy s)).1).suit_counts = g.suit_counts := rfl
    set q := (g.books s).ask.player_id.toNat with hq
    set h1 := Function.update g.hands pid
      (Function.update (g.hands pid) s (g.hands pid s + 1)) with hh1
    have hh : ((executeP g pid (.buy s)).1).hands
        = Function.update h1 q (Function.update (h1 q) s (h1 q s - 1)) := rfl
    unfold playersCardSum
    rw [hnum, hsc, hh, sum_apply_update h1 hqn _ t, hh1,
      sum_apply_update g.hands hpid _ t]
    have hcs := hc t
    unfold playersCardSum at hcs
    by_cases ht : t = s
    · subst ht
      simp only [Function.update_same]
      omega
    · simp only [Function.update_noteq ht]
      omega
  | sell s =>
    obtain ⟨hbid, hne, hhold⟩ := validateP_sell_iff.mp hv
    have hqn : (g.books s).bid.player_id.toNat < g.num_players := (hg s).1 hbid
    intro t
    have hnum : ((executeP g pid (.sell s)).1).num_players = g.num_players := rfl
    have hsc : ((executeP g pid (.sell s)).1).suit_counts = g.suit_counts := rfl
    set q := (g.books s).bid.player_id.toNat with hq
    set h1 := Function.update g.hands q
      (Function.update (g.hands q) s (g.hands q s + 1)) with hh1
    have hh : ((executeP g pid (.sell s)).1).hands
        = Function.update h1 pid (Function.update (h1 pid) s (h1 pid s - 1)) := rfl
    unfold playersCardSum
    rw [hnum, hsc, hh, sum_apply_update h1 hpid _ t, hh1,
      sum_apply_update g.hands hqn _ t]
    have hcs := hc t
    unfold playersCardSum at hcs
    by_cases ht : t = s
    · subst ht
      simp only [Function.update_same]
      omega
    · simp only [Function.update_noteq ht]
      omega

theorem preserve_moneySum_P {g : FiggieGame} {pid : Nat} {pa : PAction}
    (hpid : pid < g.num_players) (hv : validateP g pid pa = true)
    (hg : OwnersInRange g) :
    moneySum (executeP g pid pa).1 = moneySum g := by
  cases pa with
  | pass => rfl
  | bid s p => rfl
  | ask s p => rfl
  | buy s =>
    obtain ⟨hask, hne, hafford⟩ := validateP_buy_iff.mp hv
    have hqn : (g.books s).ask.player_id.toNat < g.num_players := (hg s).2 hask
    have hqne : (g.books s).ask.player_id.toNat ≠ pid :=
      toNat_ne_of_ne (Quote.is_valid_iff.mp hask).2 hne
    set q := (g.books s).ask.player_id.toNat with hq
    set m1 := Function.update g.money pid (g.money pid - (g.books s).ask.price) with hm1
    have hm : ((executeP g pid (.buy s)).1).money
        = Function.update m1 q (m1 q + (g.books s).ask.price) := rfl
    have hnum : ((executeP g pid (.buy s)).1).num_players = g.num_players := rfl
    unfold moneySum
    rw [hnum, hm, sum_update_range m1 hqn, hm1, sum_update_range g.money hpid,
      Function.update_noteq hqne]
    omega
  | sell s =>
    obtain ⟨hbid, hne, hhold⟩ := validateP_sell_iff.mp hv
    have hqn : (g.books s).bid.player_id.toNat < g.num_players := (hg s).1 hbid
    have hqne : (g.books s).bid.player_id.toNat ≠ pid :=
      toNat_ne_of_ne (Quote.is_valid_iff.mp hbid).2 hne
    have hpidne : pid ≠ (g.books s).bid.player_id.toNat := fun h => hqne h.symm
    set q := (g.books s).bid.player_id.toNat with hq
    set m1 := Function.update g.money q (g.money q - (g.books s).bid.price) with hm1
    have hm : ((executeP g pid (.sell s)).1).money
        = Function.update m1 pid (m1 pid + (g.books s).bid.price) := rfl
    have hnum : ((executeP g pid (.sell s)).1).num_players = g.num_players := rfl
    unfold moneySum
    rw [hnum, hm, sum_update_range m1 hpid, hm1, sum_update_range g.money hqn,
      Function.update_noteq hpidne]
    omega

theorem preserve_money_P {g : FiggieGame} {pid : Nat} {pa : PAction}
    (hpid : pid < g.num_players) (hv : validateP g pid pa = true)
    (hmn : MoneyNonneg g) (hba : BidsAffordable g) :
    MoneyNonneg (executeP g pid pa).1 ∧ BidsAffordable (executeP g pid pa).1 := by
  cases pa with
  | pass => exact ⟨hmn, hba⟩
  | bid s p =>
    obtain ⟨h1, h2, h3, h4⟩ := validateP_bid_iff.mp hv
    refine ⟨hmn, ?_⟩
    intro t
    simp only [executeP]
    by_cases ht : t = s
    · subst ht
      simp only [Function.update_same]
      intro _
      simpa using h2
    · simp only [Function.update_noteq ht]
      exact hba t
  | ask s p =>
    refine ⟨hmn, ?_⟩
    intro t
    simp only [executeP]
    by_cases ht : t = s
    · subst ht
      simp only [Function.update_same]
      exact hba t
    · simp only [Function.update_noteq ht]
      exact hba t
  | buy s =>
    obtain ⟨hask, hne, hafford⟩ := validateP_buy_iff.mp hv
    obtain ⟨hprice, hown⟩ := Quote.is_valid_iff.mp hask
    have hqne : (g.books s).ask.player_id.toNat ≠ pid := toNat_ne_of_ne hown hne
    constructor
    · intro p hp
      have hp' : p < g.num_players := hp
      set q := (g.books s).ask.player_id.toNat with hq
      set m1 := Function.update g.money pid (g.money pid - (g.books s).ask.price) with hm1
      have hm : ((executeP g pid (.buy s)).1).money
          = Function.update m1 q (m1 q + (g.books s).ask.price) := rfl
      rw [hm]
      by_cases hpq : p = q
      · subst hpq
        rw [Function.update_same, hm1, Function.update_noteq hqne]
        have := hmn q hp'
        omega
      · rw [Function.update_noteq hpq, hm1]
        by_cases hppid : p = pid
        · subst hppid
          rw [Function.update_same]
          omega
        · rw [Function.update_noteq hppid]
          exact hmn p hp'
    · intro t hvalid
      have hb : ((executeP g pid (.buy s)).1.books t).bid = Quote.empty := rfl
      rw [hb, Quote.empty_not_valid] at hvalid
      exact absurd hvalid (by simp)
  | sell s =>
    obtain ⟨hbid, hne, hhold⟩ := validateP_sell_iff.mp hv
    obtain ⟨hprice, hown⟩ := Quote.is_valid_iff.mp hbid
    have hqne : (g.books s).bid.player_id.toNat ≠ pid := toNat_ne_of_ne hown hne
    have hpidne : pid ≠ (g.books s).bid.player_id.toNat := fun h => hqne h.symm
    constructor
    · intro p hp
      have hp' : p < g.num_players := hp
      set q := (g.books s).bid.player_id.toNat with hq
      set m1 := Function.update g.money q (g.money q - (g.books s).bid.price) with hm1
      have hm : ((executeP g pid (.sell s)).1).money
          = Function.update m1 pid (m1 pid + (g.books s).bid.price) := rfl
      rw [hm]
      by_cases hppid : p = pid
      · subst hppid
        rw [Function.update_same, hm1, Function.update_noteq hpidne]
        have := hmn p hp'
        omega
      · rw [Function.update_noteq hppid, hm1]
        by_cases hpq : p = q
        · subst hpq
          rw [Function.update_same]
          have hba' := hba s hbid
          rw [← hq] at hba'
          omega
        · rw [Function.update_noteq hpq]
          exact hmn p hp'
    · intro t hvalid
      have hb : ((executeP g pid (.sell s)).1.books t).bid = Quote.empty := rfl
      rw [hb, Quote.empty_not_valid] at hvalid
      exact absurd hvalid (by simp)

/-! ### Lifting preservation to `execute_action` and `ExecSteps` -/

theorem preserve_uncrossed {g : FiggieGame} {pid : Nat} {ra : RawAction}
    (hv : validate_action g pid ra = true) (hg : Uncrossed g) :
    Uncrossed (execute_action g pid ra).1 := by
  rcases validate_action_iff.mp hv with ⟨pa, hp, hvp⟩
  rw [execute_action_parsed hp]
  exact preserve_uncrossed_P hvp hg

theorem preserve_owners {g : FiggieGame} {pid : Nat} {ra : RawAction}
    (hpid : pid < g.num_players) (hv : validate_action g pid ra = true)
    (hg : OwnersInRange g) : OwnersInRange (execute_action g pid ra).1 := by
  rcases validate_action_iff.mp hv with ⟨pa, hp, hvp⟩
  rw [execute_action_parsed hp]
  exact preserve_owners_P hpid hvp hg

theorem preserve_cards {g : FiggieGame} {pid : Nat} {ra : RawAction}
    (hpid : pid < g.num_players) (hv : validate_action g pid ra = true)
    (hg : OwnersInRange g) (hc : CardsConserved g) :
    CardsConserved (execute_action g pid ra).1 := by
  rcases validate_action_iff.mp hv with ⟨pa, hp, hvp⟩
  rw [execute_action_parsed hp]
  exact preserve_cards_P hpid hvp hg hc

theorem preserve_moneySum {g : FiggieGame} {pid : Nat} {ra : RawAction}
    (hpid : pid < g.num_players) (hv : validate_action g pid ra = true)
    (hg : OwnersInRange g) : moneySum (execute_action g pid ra).1 = moneySum g := by
  rcases validate_action_iff.mp hv with ⟨pa, hp, hvp⟩
  rw [execute_action_parsed hp]
  exact preserve_moneySum_P hpid hvp hg

theorem preserve_money {g : FiggieGame} {pid : Nat} {ra : RawAction}
    (hpid : pid < g.num_players) (hv : validate_action g pid ra = true)
    (hmn : MoneyNonneg g) (hba : BidsAffordable g) :
    MoneyNonneg (execute_action g pid ra).1 ∧ BidsAffordable (execute_action g pid ra).1 := by
  rcases validate_action_iff.mp hv with ⟨pa, hp, hvp⟩
  rw [execute_action_parsed hp]
  exact preserve_money_P hpid hvp hmn hba

theorem execSteps_num_players {g0 g : FiggieGame} (h : ExecSteps g0 g) :
    g.num_players = g0.num_players := by
  induction h with
  | refl => rfl
  | step pid a hs hpid hval ih => rw [execute_action_num_players]; exact ih

theorem execSteps_uncrossed {g0 g : FiggieGame} (h : ExecSteps g0 g)
    (h0 : Uncrossed g0) : Uncrossed g := by
  induction h with
  | refl => exact h0
  | step pid a hs hpid hval ih => exact preserve_uncrossed hval ih

theorem execSteps_owners_cards {g0 g : FiggieGame} (h : ExecSteps g0 g)
    (h0o : OwnersInRange g0) (h0c : CardsConserved g0) :
    OwnersInRange g ∧ CardsConserved g := by
  induction h with
  | refl => exact ⟨h0o, h0c⟩
  | step pid a hs hpid hval ih =>
    exact ⟨preserve_owners hpid hval ih.1, preserve_cards hpid hval ih.1 ih.2⟩

theorem execSteps_money {g0 g : FiggieGame} (h : ExecSteps g0 g)
    (h0n : MoneyNonneg g0) (h0b : BidsAffordable g0) :
    MoneyNonneg g ∧ BidsAffordable g := by
  induction h with
  | refl => exact ⟨h0n, h0b⟩
  | step pid a hs hpid hval ih => exact preserve_money hpid hval ih.1 ih.2

theorem execSteps_moneySum {g0 g : FiggieGame} (h : ExecSteps g0 g)
    (h0o : OwnersInRange g0) : OwnersInRange g ∧ moneySum g = moneySum g0 := by
  induction h with
  | refl => exact ⟨h0o, rfl⟩
  | step pid a hs hpid hval ih =>
    exact ⟨preserve_owners hpid hval ih.1,
      (preserve_moneySum hpid hval ih.1).trans ih.2⟩

/-! ### The freshly dealt initial state -/

theorem dealGo_sum {n : Nat} (hn : 0 < n) (s : Suit) :
    ∀ (l : List Suit) (i : Nat) (h : Nat → Suit → Int),
      ∑ p ∈ Finset.range n, dealGo n l i h p s =
        (∑ p ∈ Finset.range n, h p s) + (l.count s : Int) := by
  intro l
  induction l with
  | nil => intro i h; simp [dealGo]
  | cons c rest ih =>
    intro i h
    rw [dealGo, ih]
    unfold updHand
    rw [sum_apply_update h (Nat.mod_lt i hn) _ s]
    by_cases hc : c = s
    · subst hc
      rw [Function.update_same]
      rw [List.count_cons]
      simp
      ring
    · rw [Function.update_noteq (fun hx => hc hx.symm)]
      rw [List.count_cons]
      simp [hc]

theorem deal_cards_sum {deck : List Suit} {n : Nat} (hn : 0 < n)
    (hdvd : deck.length / n * n = deck.length) (s : Suit) :
    ∑ p ∈ Finset.range n, deal_cards deck n p s = (deck.count s : Int) := by
  unfold deal_cards
  rw [dealGo_sum hn, hdvd, List.take_length]
  simp

theorem init_game_cards {n : Nat} {deck : List Suit} {d : Suit → Nat} {goal : Suit}
    (hn : n = 4 ∨ n = 5) (hcount : ∀ s, deck.count s = d s)
    (hlen : deck.length = 40) : CardsConserved (init_game n deck d goal) := by
  intro s
  have hn0 : 0 < n := by rcases hn with h | h <;> omega
  have hdvd : deck.length / n * n = deck.length := by
    rw [hlen]; rcases hn with h | h <;> (subst h; rfl)
  have : playersCardSum (init_game n deck d goal) s
      = ∑ p ∈ Finset.range n, deal_cards deck n p s := rfl
  rw [this, deal_cards_sum hn0 hdvd s, hcount s]
  rfl

theorem init_game_books (n : Nat) (deck : List Suit) (d : Suit → Nat) (goal : Suit)
    (s : Suit) :
    ((init_game n deck d goal).books s).bid.is_valid = false ∧
    ((init_game n deck d goal).books s).ask.is_valid = false := by
  constructor <;> rfl

theorem get_ante_le (n : Nat) : get_ante n ≤ STARTING_MONEY := by
  unfold get_ante STARTING_MONEY
  split
  · omega
  · split <;> omega

theorem init_game_money_nonneg (n : Nat) (deck : List Suit) (d : Suit → Nat)
    (goal : Suit) : MoneyNonneg (init_game n deck d goal) := by
  intro p hp
  have hple : p < n := hp
  have h := get_ante_le n
  show 0 ≤ (if p < n then STARTING_MONEY - get_ante n else 0)
  rw [if_pos hple]
  omega

theorem init_game_bids_affordable (n : Nat) (deck : List Suit) (d : Suit → Nat)
    (goal : Suit) : BidsAffordable (init_game n deck d goal) := by
  intro s hvalid
  have : ((init_game n deck d goal).books s).bid.is_valid = false := rfl
  rw [this] at hvalid
  exact absurd hvalid (by simp)

theorem init_game_owners (n : Nat) (deck : List Suit) (d : Suit → Nat)
    (goal : Suit) : OwnersInRange (init_game n deck d goal) := by
  intro s
  constructor
  · intro hvalid
    have hb : ((init_game n deck d goal).books s).bid.is_valid = false := rfl
    rw [hb] at hvalid
    exact absurd hvalid (by simp)
  · intro hvalid
    have hb : ((init_game n deck d goal).books s).ask.is_valid = false := rfl
    rw [hb] at hvalid
    exact absurd hvalid (by simp)

theorem init_game_uncrossed (n : Nat) (deck : List Suit) (d : Suit → Nat)
    (goal : Suit) : Uncrossed (init_game n deck d goal) := by
  intro s hvalid
  have hb : ((init_game n deck d goal).books s).bid.is_valid = false := rfl
  rw [hb] at hvalid
  exact absurd hvalid (by simp)

/-! ### Scoring lemmas -/

theorem listRange_sum (n : Nat) (f : Nat → Int) :
    ((List.range n).map f).sum = ∑ p ∈ Finset.range n, f p := by
  induction n with
  | zero => simp
  | succ n ih => rw [List.range_succ, Finset.sum_range_succ]; simp [ih]

theorem scoresGo_length (g : FiggieGame) (W : List Nat) (rpw : Int) :
    ∀ (pids : List Nat) (leftover : Int),
      (scoresGo g W rpw pids leftover).length = pids.length := by
  intro pids
  induction pids with
  | nil => intro leftover; rfl
  | cons pid rest ih =>
    intro leftover
    by_cases h1 : pid ∈ W <;> by_cases h2 : 0 < leftover <;>
      simp [scoresGo, h1, h2, ih]

theorem scoresGo_sum (g : FiggieGame) (W : List Nat) (rpw : Int) :
    ∀ (pids : List Nat) (leftover : Int), 0 ≤ leftover →
      (scoresGo g W rpw pids leftover).sum =
        (pids.map (fun p => g.money p - STARTING_MONEY + card_payout g p)).sum
        + (pids.countP (fun p => decide (p ∈ W)) : Int) * rpw
        + min leftover (pids.countP (fun p => decide (p ∈ W)) : Int) := by
  intro pids
  induction pids with
  | nil =>
    intro leftover h0
    simp only [scoresGo, List.sum_nil, List.map_nil, List.countP_nil]
    push_cast
    omega
  | cons pid rest ih =>
    intro leftover h0
    by_cases h1 : pid ∈ W
    · by_cases h2 : 0 < leftover
      · have heq := ih (leftover - 1) (by omega)
        simp only [scoresGo, h1, if_true, h2, List.sum_cons, List.map_cons,
          List.countP_cons]
        rw [heq]
        simp [h1]
        push_cast
        generalize (List.countP (fun p => decide (p ∈ W)) rest : Int) = C
        have hmul : (C + 1) * rpw = C * rpw + rpw := by ring
        rw [hmul]
        generalize C * rpw = X
        omega
      · have heq := ih leftover h0
        simp only [scoresGo, h1, if_true, h2, if_false, List.sum_cons,
          List.map_cons, List.countP_cons]
        rw [heq]
        simp [h1]
        push_cast
        have hCnn : (0 : Int) ≤ (List.countP (fun p => decide (p ∈ W)) rest : Int) :=
          Int.natCast_nonneg _
        generalize hC : (List.countP (fun p => decide (p ∈ W)) rest : Int) = C
        rw [hC] at hCnn
        have hmul : (C + 1) * rpw = C * rpw + rpw := by ring
        rw [hmul]
        generalize C * rpw = X
        omega
    · have heq := ih leftover h0
      simp only [scoresGo, h1, if_false, List.sum_cons, List.map_cons,
        List.countP_cons]
      rw [heq]
      simp [h1]
      ring

theorem scoresGo_getD_mem (g : FiggieGame) (W : List Nat) (rpw : Int) :
    ∀ (pids : List Nat) (k : Nat) (leftover : Int), 0 ≤ leftover →
      k < pids.length → pids.getD k 0 ∈ W →
      (scoresGo g W rpw pids leftover).getD k 0 =
          (g.money (pids.getD k 0) - STARTING_MONEY + card_payout g (pids.getD k 0)) + rpw
        ∨ (scoresGo g W rpw pids leftover).getD k 0 =
          (g.money (pids.getD k 0) - STARTING_MONEY + card_payout g (pids.getD k 0)) + rpw + 1 := by
  intro pids
  induction pids with
  | nil => intro k leftover h0 hk; simp at hk
  | cons pid rest ih =>
    intro k leftover h0 hk hw
    cases k with
    | zero =>
      simp only [List.getD_cons_zero] at hw ⊢
      by_cases h2 : 0 < leftover
      · simp only [scoresGo, hw, if_true, h2, List.getD_cons_zero]
        right; ring
      · simp only [scoresGo, hw, if_true, h2, if_false, List.getD_cons_zero]
        left; ring
    | succ k =>
      have hk' : k < rest.length := by simpa using hk
      simp only [List.getD_cons_succ] at hw ⊢
      by_cases h1 : pid ∈ W
      · by_cases h2 : 0 < leftover
        · simp only [scoresGo, h1, if_true, h2, List.getD_cons_succ]
          exact ih k (leftover - 1) (by omega) hk' hw
        · simp only [scoresGo, h1, if_true, h2, if_false, List.getD_cons_succ]
          exact ih k leftover h0 hk' hw
      · simp only [scoresGo, h1, if_false, List.getD_cons_succ]
        exact ih k leftover h0 hk' hw

theorem scoresGo_getD_notmem (g : FiggieGame) (W : List Nat) (rpw : Int) :
    ∀ (pids : List Nat) (k : Nat) (leftover : Int),
      k < pids.length → pids.getD k 0 ∉ W →
      (scoresGo g W rpw pids leftover).getD k 0 =
        g.money (pids.getD k 0) - STARTING_MONEY + card_payout g (pids.getD k 0) := by
  intro pids
  induction pids with
  | nil => intro k leftover hk; simp at hk
  | cons pid rest ih =>
    intro k leftover hk hw
    cases k with
    | zero =>
      simp only [List.getD_cons_zero] at hw ⊢
      simp only [scoresGo, hw, if_false, List.getD_cons_zero]
    | succ k =>
      have hk' : k < rest.length := by simpa using hk
      simp only [List.getD_cons_succ] at hw ⊢
      by_cases h1 : pid ∈ W
      · by_cases h2 : 0 < leftover
        · simp only [scoresGo, h1, if_true, h2, List.getD_cons_succ]
          exact ih k (leftover - 1) hk' hw
        · simp only [scoresGo, h1, if_true, h2, if_false, List.getD_cons_succ]
          exact ih k leftover hk' hw
      · simp only [scoresGo, h1, if_false, List.getD_cons_succ]
        exact ih k leftover hk' hw

theorem getD_range {n k : Nat} (h : k < n) : (List.range n).getD k 0 = k := by
  rw [List.getD_eq_getElem?_getD, List.getElem?_range h]; rfl

theorem sum_getD_range (l : List Int) :
    ((List.range l.length).map (fun k => l.getD k 0)).sum = l.sum := by
  induction l with
  | nil => rfl
  | cons a l ih =>
    rw [List.length_cons, List.range_succ_eq_map, List.map_cons,
      List.getD_cons_zero, List.map_map, List.sum_cons]
    have hmap : (List.map ((fun k => (a :: l).getD k 0) ∘ Nat.succ) (List.range l.length))
        = List.map (fun k => l.getD k 0) (List.range l.length) :=
      List.map_congr_left (fun k _ => by simp [Function.comp])
    rw [hmap, ih, List.sum_cons]

theorem sum_map_filter_eq {α : Type} (l : List α) (p : α → Bool) (f : α → Int)
    (h : ∀ x ∈ l, p x = false → f x = 0) :
    ((l.filter p).map f).sum = (l.map f).sum := by
  induction l with
  | nil => rfl
  | cons a l ih =>
    have ih' := ih (fun x hx => h x (List.mem_cons_of_mem _ hx))
    by_cases hpa : p a = true
    · rw [List.filter_cons_of_pos hpa]
      simp [ih']
    · have hf : p a = false := by simpa using hpa
      rw [List.filter_cons_of_neg hpa, List.map_cons, List.sum_cons,
        h a (List.mem_cons_self a l) hf, ih']
      ring

theorem mem_winners_iff {g : FiggieGame} {p : Nat} :
    p ∈ winnersList g ↔
      p < g.num_players ∧ g.hands p g.goal_suit = max_goal_cards g := by
  unfold winnersList
  rw [List.mem_filter, List.mem_range]
  simp only [decide_eq_true_eq]

theorem winners_ne_nil {g : FiggieGame} (hn : 0 < g.num_players) :
    winnersList g ≠ [] := by
  cases hmax : ((List.range g.num_players).map
      (fun p => g.hands p g.goal_suit)).max? with
  | none =>
    rw [List.max?_eq_none_iff] at hmax
    have : (0 : Nat) ∈ List.range g.num_players := List.mem_range.mpr hn
    rw [List.map_eq_nil] at hmax
    rw [hmax] at this
    simp at this
  | some m =>
    have hm := List.max?_mem max_choice hmax
    rw [List.mem_map] at hm
    obtain ⟨p, hp, hfp⟩ := hm
    apply List.ne_nil_of_mem (a := p)
    rw [mem_winners_iff]
    refine ⟨List.mem_range.mp hp, ?_⟩
    unfold max_goal_cards
    rw [hmax, hfp]
    rfl

theorem countP_range_winners (g : FiggieGame) :
    (List.range g.num_players).countP (fun p => decide (p ∈ winnersList g))
      = (winnersList g).length := by
  have hfil : winnersList g = (List.range g.num_players).filter
      (fun p => decide (g.hands p g.goal_suit = max_goal_cards g)) := rfl
  rw [hfil, ← List.countP_eq_length_filter]
  apply List.countP_congr
  intro x hx
  simp only [decide_eq_true_eq]
  rw [← hfil, mem_winners_iff]
  have hx' : x < g.num_players := List.mem_range.mp hx
  constructor
  · rintro ⟨_, h⟩; exact h
  · intro h; exact ⟨hx', h⟩

/-- The per-player final score (the Python dict entry `final_scores[pid]`). -/
def scoreOfPid (g : FiggieGame) (pid : Nat) : Int := (calculate_scores g).getD pid 0

/-- The part of a player's final score beyond trading result and card bonus:
the slice of the pot remainder that `calculate_scores` awarded to them. -/
def winner_share (g : FiggieGame) (pid : Nat) : Int :=
  scoreOfPid g pid - (g.money pid - STARTING_MONEY) - card_payout g pid

theorem leftover0_nonneg (g : FiggieGame) : 0 ≤ leftover0 g := by
  unfold leftover0
  split
  · omega
  · refine Int.emod_nonneg _ ?_
    have : winnersList g ≠ [] := by assumption
    have := List.length_pos.mpr this
    omega

theorem leftover0_lt {g : FiggieGame} (hW : winnersList g ≠ []) :
    leftover0 g < ((winnersList g).length : Int) := by
  unfold leftover0
  rw [if_neg hW]
  refine Int.emod_lt_of_pos _ ?_
  have := List.length_pos.mpr hW
  omega

theorem winner_share_of_mem {g : FiggieGame} {p : Nat} (hp : p ∈ winnersList g) :
    winner_share g p = remainderPerWinner g ∨
    winner_share g p = remainderPerWinner g + 1 := by
  have hplt : p < g.num_players := (mem_winners_iff.mp hp).1
  have hk : p < (List.range g.num_players).length := by simpa using hplt
  have hd := scoresGo_getD_mem g (winnersList g) (remainderPerWinner g)
    (List.range g.num_players) p (leftover0 g) (leftover0_nonneg g) hk
    (by rw [getD_range hplt]; exact hp)
  unfold winner_share scoreOfPid calculate_scores
  rw [getD_range hplt] at hd
  rcases hd with hd | hd <;> [left; right] <;> (rw [hd]; ring)

theorem winner_share_of_notmem {g : FiggieGame} {p : Nat}
    (hplt : p < g.num_players) (hp : p ∉ winnersList g) :
    winner_share g p = 0 := by
  have hk : p < (List.range g.num_players).length := by simpa using hplt
  have hd := scoresGo_getD_notmem g (winnersList g) (remainderPerWinner g)
    (List.range g.num_players) p (leftover0 g) hk
    (by rw [getD_range hplt]; exact hp)
  unfold winner_share scoreOfPid calculate_scores
  rw [getD_range hplt] at hd
  rw [hd]
  ring

theorem base_map_sum (g : FiggieGame) :
    ((List.range g.num_players).map
        (fun p => g.money p - STARTING_MONEY + card_payout g p)).sum
      = moneySum g - (g.num_players : Int) * STARTING_MONEY
        + ((List.range g.num_players).map (card_payout g)).sum := by
  rw [listRange_sum, listRange_sum]
  rw [Finset.sum_add_distrib, Finset.sum_sub_distrib, Finset.sum_const,
    Finset.card_range]
  unfold moneySum
  push_cast
  ring

theorem scores_sum_eq (g : FiggieGame) (hn : 0 < g.num_players) :
    (calculate_scores g).sum =
      moneySum g - (g.num_players : Int) * STARTING_MONEY + POT := by
  have hW := winners_ne_nil hn
  have hlen : 0 < ((winnersList g).length : Int) := by
    have := List.length_pos.mpr hW
    push_cast
    omega
  unfold calculate_scores
  rw [scoresGo_sum _ _ _ _ _ (leftover0_nonneg g), countP_range_winners]
  have hmin : min (leftover0 g) ((winnersList g).length : Int) = leftover0 g := by
    have := leftover0_lt hW
    have := leftover0_nonneg g
    omega
  rw [hmin, base_map_sum]
  have hrpw : remainderPerWinner g
      = pot_remainder g / ((winnersList g).length : Int) := by
    unfold remainderPerWinner; rw [if_neg hW]
  have hl0 : leftover0 g
      = pot_remainder g % ((winnersList g).length : Int) := by
    unfold leftover0; rw [if_neg hW]
  rw [hrpw, hl0]
  have hdm := Int.ediv_add_emod (pot_remainder g) ((winnersList g).length : Int)
  have hrem : pot_remainder g
      = POT - ((List.range g.num_players).map (card_payout g)).sum := rfl
  generalize hD : pot_remainder g / ((winnersList g).length : Int) = D at *
  generalize hM : pot_remainder g % ((winnersList g).length : Int) = M at *
  generalize hY : ((winnersList g).length : Int) * D = Y at *
  generalize hP : ((List.range g.num_players).map (card_payout g)).sum = P at *
  omega

/-- C1: for every terminal game state reachable by the scheduler (hands
summing per suit to the deck distribution, money summing to
`num_players * 350 - 200` after ante and zero-sum trading), the final scores
computed by `calculate_scores` sum to exactly 0, including games with zero
trades. -/
theorem C1_terminal_scores_sum_zero (g : FiggieGame)
    (hn : g.num_players = 4 ∨ g.num_players = 5)
    (hcards : ∀ s, playersCardSum g s = (g.suit_counts s : Int))
    (hmoney : moneySum g = (g.num_players : Int) * 350 - 200) :
    (calculate_scores g).sum = 0 := by
  have hn0 : 0 < g.num_players := by rcases hn with h | h <;> omega
  rw [scores_sum_eq g hn0, hmoney]
  have hSM : STARTING_MONEY = 350 := rfl
  have hPOT : POT = 200 := rfl
  rw [hSM, hPOT]
  ring

/-- Witness for C1: a concrete terminal 4-player state (goal suit diamonds,
diamond counts 1/3/5/1, all other suits conserved, untouched post-ante money)
whose scores sum to zero. -/
def gC1 : FiggieGame :=
  { num_players := 4
    hands := fun p s =>
      if p < 4 then (if s = Suit.diamonds then [1, 3, 5, 1].getD p 0
                     else [2, 3, 2, 3].getD p 0)
      else 0
    money := fun p => if p < 4 then 300 else 0
    goal_suit := Suit.diamonds
    suit_counts := fun _ => 10
    books := OrderBook.empty
    trades := []
    current_tick := 0
    game_over := false
    final_scores := [] }

theorem C1_terminal_scores_sum_zero_witness : (calculate_scores gC1).sum = 0 :=
  C1_terminal_scores_sum_zero gC1 (Or.inl rfl) (by decide) (by decide)

/-- C4: the pot remainder is split among the maximal goal-suit holders by
integer division, the leftover handed out one unit at a time in ascending
player-id order; the distributed shares sum to the remainder exactly, each
winner's share is the integer quotient or one more, and no winner receives
more than one unit more than any other winner. -/
theorem C4_remainder_split (g : FiggieGame) (hn : 0 < g.num_players) :
    ((winnersList g).map (winner_share g)).sum = pot_remainder g
    ∧ (∀ p ∈ winnersList g,
        winner_share g p = remainderPerWinner g ∨
        winner_share g p = remainderPerWinner g + 1)
    ∧ (∀ p ∈ winnersList g, ∀ q ∈ winnersList g,
        winner_share g p - winner_share g q ≤ 1) := by
  have hW := winners_ne_nil hn
  refine ⟨?_, fun p hp => winner_share_of_mem hp, ?_⟩
  · -- the winners' shares sum to the whole remainder
    have hfil : winnersList g = (List.range g.num_players).filter
        (fun p => decide (g.hands p g.goal_suit = max_goal_cards g)) := rfl
    have hzero : ∀ x ∈ List.range g.num_players,
        (fun p => decide (g.hands p g.goal_suit = max_goal_cards g)) x = false →
        winner_share g x = 0 := by
      intro x hx hfx
      refine winner_share_of_notmem (List.mem_range.mp hx) ?_
      rw [mem_winners_iff]
      rintro ⟨_, hmax⟩
      simp [hmax] at hfx
    have hsum : ((winnersList g).map (winner_share g)).sum
        = ((List.range g.num_players).map (winner_share g)).sum := by
      rw [hfil]
      exact sum_map_filter_eq _ _ _ hzero
    rw [hsum, listRange_sum]
    have hws : ∀ p, winner_share g p
        = scoreOfPid g p - (g.money p - STARTING_MONEY) - card_payout g p :=
      fun p => rfl
    calc ∑ p ∈ Finset.range g.num_players, winner_share g p
        = (∑ p ∈ Finset.range g.num_players, scoreOfPid g p)
          - (∑ p ∈ Finset.range g.num_players, (g.money p - STARTING_MONEY))
          - ∑ p ∈ Finset.range g.num_players, card_payout g p := by
          rw [← Finset.sum_sub_distrib, ← Finset.sum_sub_distrib]
          exact Finset.sum_congr rfl fun x _ => rfl
      _ = pot_remainder g := ?_
    have hscore : ∑ p ∈ Finset.range g.num_players, scoreOfPid g p
        = (calculate_scores g).sum := by
      rw [← listRange_sum]
      have hlen2 : (calculate_scores g).length = g.num_players := by
        unfold calculate_scores
        rw [scoresGo_length]
        simp
      conv_rhs => rw [← sum_getD_range (calculate_scores g), hlen2]
      rfl
    rw [hscore, scores_sum_eq g hn]
    rw [Finset.sum_sub_distrib, Finset.sum_const, Finset.card_range]
    have hrem : pot_remainder g
        = POT - ((List.range g.num_players).map (card_payout g)).sum := rfl
    rw [hrem, listRange_sum]
    unfold moneySum
    push_cast
    ring
  · intro p hp q hq
    rcases winner_share_of_mem hp with h1 | h1 <;>
      rcases winner_share_of_mem hq with h2 | h2 <;> rw [h1, h2] <;> omega

/-- Witness for C4: a concrete 4-player terminal state with two tied winners
(diamond counts 3/3/1/1, remainder 120 split 60/60). -/
def gC4 : FiggieGame :=
  { num_players := 4
    hands := fun p s =>
      if p < 4 then (if s = Suit.diamonds then [3, 3, 1, 1].getD p 0
                     else [2, 3, 2, 3].getD p 0)
      else 0
    money := fun p => if p < 4 then 300 else 0
    goal_suit := Suit.diamonds
    suit_counts := fun s => if s = Suit.diamonds then 8 else 10
    books := OrderBook.empty
    trades := []
    current_tick := 0
    game_over := false
    final_scores := [] }

theorem C4_remainder_split_witness :
    ((winnersList gC4).map (winner_share gC4)).sum = pot_remainder gC4
    ∧ (winner_share gC4 0 = remainderPerWinner gC4 ∨
       winner_share gC4 0 = remainderPerWinner gC4 + 1)
    ∧ winner_share gC4 0 - winner_share gC4 1 ≤ 1 :=
  ⟨(C4_remainder_split gC4 (by decide)).1,
   (C4_remainder_split gC4 (by decide)).2.1 0 (by decide),
   (C4_remainder_split gC4 (by decide)).2.2 0 (by decide) 1 (by decide)⟩

/-- C3: for every game state and every validated buy or sell action,
immediately after `execute_action` returns, the bid quote and the ask quote
of every one of the four suits (not only the traded suit) are invalid. -/
theorem C3_trade_clears_all_books (g : FiggieGame) (pid : Nat) (ra : RawAction)
    (s0 : Suit)
    (hbs : parseAction ra = some (.buy s0) ∨ parseAction ra = some (.sell s0))
    (hv : validate_action g pid ra = true) :
    ∀ s : Suit, (((execute_action g pid ra).1.books s).bid.is_valid = false) ∧
                (((execute_action g pid ra).1.books s).ask.is_valid = false) := by
  intro s
  rcases hbs with hp | hp <;> rw [execute_action_parsed hp] <;> exact ⟨rfl, rfl⟩

/-- Witness state for C3: a live spades ask owned by player 1, plus an
unrelated live hearts bid, which must also be wiped by the trade. -/
def gC3 : FiggieGame :=
  { num_players := 4
    hands := fun p _ => if p < 4 then 2 else 0
    money := fun p => if p < 4 then 300 else 0
    goal_suit := Suit.diamonds
    suit_counts := fun _ => 10
    books := fun s =>
      if s = Suit.spades then ⟨s, Quote.empty, ⟨5, 1⟩, none⟩
      else if s = Suit.hearts then ⟨s, ⟨4, 2⟩, Quote.empty, none⟩
      else OrderBook.empty s
    trades := []
    current_tick := 0
    game_over := false
    final_scores := [] }

theorem C3_trade_clears_all_books_witness :
    (((execute_action gC3 0 (buyRaw "spades")).1.books Suit.hearts).bid.is_valid = false) ∧
    (((execute_action gC3 0 (buyRaw "spades")).1.books Suit.hearts).ask.is_valid = false) :=
  C3_trade_clears_all_books gC3 0 (buyRaw "spades") Suit.spades (Or.inl (by decide))
    (by decide) Suit.hearts

/-- C5: in every game state reachable from an initial state with all quotes
empty by executing only validator-approved actions, whenever a suit's bid
and ask are both valid, the bid price is strictly below the ask price: a
crossed book never persists. -/
theorem C5_no_crossed_book (g0 g : FiggieGame)
    (h0 : ∀ s : Suit, ((g0.books s).bid.is_valid = false) ∧
                      ((g0.books s).ask.is_valid = false))
    (hsteps : ExecSteps g0 g) :
    ∀ s : Suit, (g.books s).bid.is_valid = true → (g.books s).ask.is_valid = true →
      (g.books s).bid.price < (g.books s).ask.price := by
  have h0u : Uncrossed g0 := by
    intro s hb
    rw [(h0 s).1] at hb
    exact absurd hb (by simp)
  exact execSteps_uncrossed hsteps h0u

/-- Witness state for C5: empty books, player 1 holding a spade. -/
def gC5 : FiggieGame :=
  { num_players := 4
    hands := fun p _ => if p = 1 then 1 else 0
    money := fun p => if p < 4 then 300 else 0
    goal_suit := Suit.diamonds
    suit_counts := fun _ => 10
    books := OrderBook.empty
    trades := []
    current_tick := 0
    game_over := false
    final_scores := [] }

/-- gC5 after player 0 bids spades at 3. -/
def gC5a : FiggieGame := (execute_action gC5 0 (bidRaw "spades" 3)).1

/-- gC5a after player 1 asks spades at 7 (both quotes now live). -/
def gC5b : FiggieGame := (execute_action gC5a 1 (askRaw "spades" 7)).1

theorem C5_no_crossed_book_witness :
    (gC5b.books Suit.spades).bid.price < (gC5b.books Suit.spades).ask.price :=
  C5_no_crossed_book gC5 gC5b (by decide)
    (ExecSteps.step 1 (askRaw "spades" 7)
      (ExecSteps.step 0 (bidRaw "spades" 3) (ExecSteps.refl gC5)
        (by decide) (by decide))
      (by decide) (by decide))
    Suit.spades (by decide) (by decide)

/-- C6: the sum of all players' money is unchanged by `execute_action` on any
validated action (each trade transfers exactly the trade price from buyer to
seller), and hence across any sequence of resolved actions within a round;
only the one-time ante deduction at setup changes the total. -/
theorem C6_trading_money_conserved :
    (∀ (g : FiggieGame) (pid : Nat) (ra : RawAction),
        OwnersInRange g → pid < g.num_players → validate_action g pid ra = true →
        moneySum (execute_action g pid ra).1 = moneySum g)
    ∧ (∀ (g : FiggieGame) (acts : List (Nat × RawAction)) (b : Bool),
        OwnersInRange g → (∀ pa ∈ acts, pa.1 < g.num_players) →
        moneySum (resolve_actions g acts b).1 = moneySum g) := by
  constructor
  · intro g pid ra ho hpid hv
    exact preserve_moneySum hpid hv ho
  · intro g acts b ho hp
    induction acts generalizing g b with
    | nil => rfl
    | cons pa rest ih =>
      obtain ⟨pid, ra⟩ := pa
      show moneySum (resolve_actions (resolve_step g pid ra).1 rest _).1 = moneySum g
      have hpid : pid < g.num_players := hp (pid, ra) (List.mem_cons_self _ _)
      have hrest : ∀ pa ∈ rest, pa.1 < g.num_players :=
        fun pa hpa => hp pa (List.mem_cons_of_mem _ hpa)
      by_cases hv : validate_action g pid ra = true
      · have hstep : (resolve_step g pid ra).1 = (execute_action g pid ra).1 := by
          unfold resolve_step
          rw [if_pos hv]
        rw [hstep]
        rw [ih _ _ (preserve_owners hpid hv ho)
          (by rw [execute_action_num_players]; exact hrest),
          preserve_moneySum hpid hv ho]
      · have hstep : (resolve_step g pid ra).1 = g := by
          unfold resolve_step
          rw [if_neg hv]
        rw [hstep, ih _ _ ho hrest]

/-- Witness state for C6: a live spades bid by player 0 at 5, player 1
holding spades. -/
def gC6 : FiggieGame :=
  { num_players := 4
    hands := fun p _ => if p < 4 then 1 else 0
    money := fun p => if p < 4 then 300 else 0
    goal_suit := Suit.diamonds
    suit_counts := fun _ => 10
    books := fun s =>
      if s = Suit.spades then ⟨s, ⟨5, 0⟩, Quote.empty, none⟩ else OrderBook.empty s
    trades := []
    current_tick := 0
    game_over := false
    final_scores := [] }

theorem C6_trading_money_conserved_witness :
    moneySum (execute_action gC6 1 (sellRaw "spades")).1 = moneySum gC6
    ∧ moneySum (resolve_actions gC6
        [(2, bidRaw "hearts" 7), (1, sellRaw "spades")] true).1 = moneySum gC6 :=
  ⟨C6_trading_money_conserved.1 gC6 1 (sellRaw "spades") (by decide) (by decide)
    (by decide),
   C6_trading_money_conserved.2 gC6 [(2, bidRaw "hearts" 7), (1, sellRaw "spades")]
    true (by decide) (by decide)⟩

/-- C7: at every point in a round (after dealing, and after each validated
executed action), every suit's total count over all hands equals the deck
distribution's count for that suit: trades transfer exactly one card and
never create or destroy cards. -/
theorem C7_cards_conserved (n : Nat) (deck : List Suit) (d : Suit → Nat)
    (goal : Suit) (g : FiggieGame)
    (hn : n = 4 ∨ n = 5) (hcount : ∀ s, deck.count s = d s)
    (hlen : deck.length = 40)
    (hsteps : ExecSteps (init_game n deck d goal) g) :
    ∀ s : Suit, playersCardSum g s = (g.suit_counts s : Int) :=
  (execSteps_owners_cards hsteps (init_game_owners n deck d goal)
    (init_game_cards hn hcount hlen)).2

/-- The shuffled deck used by the C7 and C10 witnesses: 10 spades, 10 clubs,
8 hearts, 12 diamonds. -/
def deckW : List Suit :=
  List.replicate 10 Suit.spades ++ List.replicate 10 Suit.clubs ++
  List.replicate 8 Suit.hearts ++ List.replicate 12 Suit.diamonds

/-- The deck distribution of `deckW`. -/
def distW : Suit → Nat
  | .spades => 10
  | .clubs => 10
  | .hearts => 8
  | .diamonds => 12

/-- The witness initial state for C7/C10 (goal suit hearts). -/
def gInitW : FiggieGame := init_game 4 deckW distW Suit.hearts

/-- gInitW after player 0 bids clubs at 5. -/
def gInitWb : FiggieGame := (execute_action gInitW 0 (bidRaw "clubs" 5)).1

theorem C7_cards_conserved_witness :
    playersCardSum gInitWb Suit.diamonds = (gInitWb.suit_counts Suit.diamonds : Int) :=
  C7_cards_conserved 4 deckW distW Suit.hearts gInitWb (Or.inl rfl) (by decide)
    (by decide)
    (ExecSteps.step 0 (bidRaw "clubs" 5) (ExecSteps.refl gInitW)
      (by decide) (by decide))
    Suit.diamonds

/-- C10: in every state reachable by the scheduler from the post-ante initial
state by executing only validator-approved actions, every player's money is
non-negative: buys are checked against the buyer's money, and a live bid's
owner can always afford the bid when a sell hits it, because every trade
clears all quotes, so the bid owner's money cannot have decreased since the
bid was validated. -/
theorem C10_money_nonneg (n : Nat) (deck : List Suit) (d : Suit → Nat)
    (goal : Suit) (g : FiggieGame)
    (hsteps : ExecSteps (init_game n deck d goal) g) :
    ∀ p : Nat, p < g.num_players → 0 ≤ g.money p :=
  (execSteps_money hsteps (init_game_money_nonneg n deck d goal)
    (init_game_bids_affordable n deck d goal)).1

/-- gInitWb after player 1 sells into player 0's clubs bid (a full trade). -/
def gInitWc : FiggieGame := (execute_action gInitWb 1 (sellRaw "clubs")).1

theorem C10_money_nonneg_witness : 0 ≤ gInitWc.money 0 :=
  C10_money_nonneg 4 deckW distW Suit.hearts gInitWc
    (ExecSteps.step 1 (sellRaw "clubs")
      (ExecSteps.step 0 (bidRaw "clubs" 5) (ExecSteps.refl gInitW)
        (by decide) (by decide))
      (by decide) (by decide))
    0 (by decide)

/-! ### C2: a crossing ask within a tick -/

/-- The engine's name for each suit (`SUITS` strings). -/
def suitName : Suit → String
  | .spades => "spades"
  | .clubs => "clubs"
  | .hearts => "hearts"
  | .diamonds => "diamonds"

theorem parse_bidRaw (s : Suit) (p : Int) :
    parseAction (bidRaw (suitName s) p) = some (.bid s p) := by
  cases s <;> rfl

theorem parse_askRaw (s : Suit) (p : Int) :
    parseAction (askRaw (suitName s) p) = some (.ask s p) := by
  cases s <;> rfl

/-- State for the C2 scenario: empty books, player 1 holding one card of
each suit, post-ante money. -/
def gC2 : FiggieGame :=
  { num_players := 4
    hands := fun p _ => if p = 1 then 1 else 0
    money := fun p => if p < 4 then 300 else 0
    goal_suit := Suit.diamonds
    suit_counts := fun _ => 10
    books := OrderBook.empty
    trades := []
    current_tick := 0
    game_over := false
    final_scores := [] }

/-- Counterexample to C2 as stated: player 0's bid at 5 on an empty spades
book executes, then player 1's ask at 5 (≤ 5, different player, holds the
card) is resolved in the same tick — and NO trade is executed: the
re-validation rejects the ask as crossing the bid and downgrades it to pass,
leaving the trade list empty. -/
theorem C2_crossing_ask_no_trade_counterexample :
    (resolve_actions gC2 [(0, bidRaw "spades" 5), (1, askRaw "spades" 5)] true).1.trades = []
    ∧ validate_action (execute_action gC2 0 (bidRaw "spades" 5)).1 1
        (askRaw "spades" 5) = false := by
  decide

/-- C2 (amended): within a single tick's resolution phase, if one player's
bid at price P is executed on an empty book and a later-resolved action of a
different player is an ask on the same suit at a price ≤ P, then the
re-validation step rejects the ask as crossing the bid (the engine directs
the player to use `sell` instead): the ask is downgraded to `pass`, no trade
is executed, and the state is left unchanged, so no crossed book is ever
posted. -/
theorem C2_crossing_ask_downgraded (g : FiggieGame) (pid1 pid2 : Nat) (s : Suit)
    (P A : Int)
    (hbid0 : (g.books s).bid.is_valid = false)
    (hask0 : (g.books s).ask.is_valid = false)
    (hne : pid2 ≠ pid1)
    (hv1 : validate_action g pid1 (bidRaw (suitName s) P) = true)
    (hA : 0 < A) (hAP : A ≤ P) :
    validate_action (execute_action g pid1 (bidRaw (suitName s) P)).1 pid2
        (askRaw (suitName s) A) = false
    ∧ resolve_step (execute_action g pid1 (bidRaw (suitName s) P)).1 pid2
        (askRaw (suitName s) A)
      = ((execute_action g pid1 (bidRaw (suitName s) P)).1, passRaw, false) := by
  have hv1' : validateP g pid1 (.bid s P) = true := by
    unfold validate_action at hv1
    rw [parse_bidRaw] at hv1
    exact hv1
  obtain ⟨hP, _, _, _⟩ := validateP_bid_iff.mp hv1'
  have hbook : ((execute_action g pid1 (bidRaw (suitName s) P)).1).books s
      = { g.books s with bid := ⟨P, (pid1 : Int)⟩ } := by
    rw [execute_action_parsed (parse_bidRaw s P)]
    show (Function.update g.books s _) s = _
    rw [Function.update_same]
  have hval : validate_action (execute_action g pid1 (bidRaw (suitName s) P)).1 pid2
      (askRaw (suitName s) A) = false := by
    unfold validate_action
    rw [parse_askRaw]
    cases hbx : validateP (execute_action g pid1 (bidRaw (suitName s) P)).1 pid2
        (.ask s A) with
    | false => exact hbx
    | true =>
      exfalso
      obtain ⟨_, _, _, h4⟩ := validateP_ask_iff.mp hbx
      rw [hbook] at h4
      have hbval : (Quote.mk P (pid1 : Int)).is_valid = true :=
        Quote.is_valid_iff.mpr ⟨hP, Int.natCast_nonneg pid1⟩
      have := h4 hbval
      simp only at this
      omega
  refine ⟨hval, ?_⟩
  unfold resolve_step
  rw [if_neg (by rw [hval]; simp)]

theorem C2_crossing_ask_downgraded_witness :
    validate_action (execute_action gC2 0 (bidRaw (suitName Suit.spades) 5)).1 1
        (askRaw (suitName Suit.spades) 5) = false
    ∧ resolve_step (execute_action gC2 0 (bidRaw (suitName Suit.spades) 5)).1 1
        (askRaw (suitName Suit.spades) 5)
      = ((execute_action gC2 0 (bidRaw (suitName Suit.spades) 5)).1, passRaw, false) :=
  C2_crossing_ask_downgraded gC2 0 1 Suit.spades 5 5 (by decide) (by decide)
    (by decide) (by decide) (by decide) (by decide)

/-! ### C8: policy faults and malformed actions become `pass` -/

/-- C8: if a policy invocation raises, the scheduler substitutes `pass`
(which is always valid and leaves the state unchanged), and if a collected
action is malformed or otherwise fails re-validation in the resolution
phase, it is downgraded to `pass` and the state is unchanged — the tick
loop always continues; no fault escapes it (the embedded scheduler is a
total function). -/
theorem C8_policy_faults_become_pass :
    (∀ (g : FiggieGame) (pid : Nat) (pol : Policy) (e : Unit),
        pol (get_game_state g pid) = .error e →
        collect_one pol (get_game_state g pid) = passRaw
        ∧ resolve_step g pid (collect_one pol (get_game_state g pid))
            = (g, passRaw, true))
    ∧ (∀ (g : FiggieGame) (pid : Nat) (ra : RawAction),
        validate_action g pid ra = false →
        resolve_step g pid ra = (g, passRaw, false)) := by
  constructor
  · intro g pid pol e he
    have hc : collect_one pol (get_game_state g pid) = passRaw := by
      unfold collect_one
      rw [he]
    refine ⟨hc, ?_⟩
    rw [hc]
    unfold resolve_step
    rw [if_pos (show validate_action g pid passRaw = true from rfl)]
    rfl
  · intro g pid ra hv
    unfold resolve_step
    rw [if_neg (by rw [hv]; simp)]

/-- A policy that always raises, for the C8 witness. -/
def polC8 : Policy := fun _ => .error ()

/-- A plain state for the C8 witness. -/
def gC8 : FiggieGame :=
  { num_players := 4
    hands := fun p _ => if p < 4 then 1 else 0
    money := fun p => if p < 4 then 300 else 0
    goal_suit := Suit.diamonds
    suit_counts := fun _ => 10
    books := OrderBook.empty
    trades := []
    current_tick := 0
    game_over := false
    final_scores := [] }

theorem C8_policy_faults_become_pass_witness :
    (collect_one polC8 (get_game_state gC8 0) = passRaw
      ∧ resolve_step gC8 0 (collect_one polC8 (get_game_state gC8 0))
          = (gC8, passRaw, true))
    ∧ resolve_step gC8 0 RawAction.notDict = (gC8, passRaw, false) :=
  ⟨C8_policy_faults_become_pass.1 gC8 0 polC8 () rfl,
   C8_policy_faults_become_pass.2 gC8 0 RawAction.notDict rfl⟩

/-! ### C9: the tick loop is bounded and stops on consecutive passes -/

theorem run_loop_ticks_le (policies : List Policy) (shuffle : Shuffler) :
    ∀ (fuel tick consec : Nat) (g : FiggieGame),
      (run_loop policies shuffle fuel tick consec g).2 ≤ fuel := by
  intro fuel
  induction fuel with
  | zero => intro tick consec g; simp [run_loop]
  | succ fuel ih =>
    intro tick consec g
    simp only [run_loop]
    split
    · split
      · simp
      · have := ih (tick + 1) (consec + 1) (run_tick policies shuffle g tick).1
        simp
        omega
    · have := ih (tick + 1) 0 (run_tick policies shuffle g tick).1
      simp
      omega

/-- C9: the scheduler's tick loop terminates: for every policy behavior and
every resolution order it executes at most `MAX_TICKS = 200` ticks, and as
soon as a tick ends with every player's final action being `pass` while the
consecutive-all-pass counter would reach `CONSECUTIVE_PASS_LIMIT = 3`, the
loop stops immediately after that tick. -/
theorem C9_tick_loop_bounded (policies : List Policy) (shuffle : Shuffler) :
    (∀ g : FiggieGame, (run_game_loop policies shuffle g).2 ≤ MAX_TICKS)
    ∧ (∀ (fuel tick consec : Nat) (g : FiggieGame),
        (run_tick policies shuffle g tick).2 = true →
        CONSECUTIVE_PASS_LIMIT ≤ consec + 1 →
        run_loop policies shuffle (fuel + 1) tick consec g
          = ((run_tick policies shuffle g tick).1, 1)) := by
  constructor
  · intro g
    exact run_loop_ticks_le policies shuffle MAX_TICKS 0 0 g
  · intro fuel tick consec g hall hlim
    simp only [run_loop]
    rw [if_pos hall, if_pos hlim]

/-- Four all-passing policies, for the C9 witness. -/
def polsC9 : List Policy :=
  [fun _ => .ok passRaw, fun _ => .ok passRaw, fun _ => .ok passRaw,
   fun _ => .ok passRaw]

/-- The identity resolution order, for the C9 witness. -/
def shufC9 : Shuffler := fun _ l => l

theorem C9_tick_loop_bounded_witness :
    (run_game_loop polsC9 shufC9 gC2).2 ≤ MAX_TICKS
    ∧ run_loop polsC9 shufC9 (5 + 1) 7 2 gC2
        = ((run_tick polsC9 shufC9 gC2 7).1, 1) :=
  ⟨(C9_tick_loop_bounded polsC9 shufC9).1 gC2,
   (C9_tick_loop_bounded polsC9 shufC9).2 5 7 2 gC2 (by decide) (by decide)⟩

end Figgie
